import Mathlib

/-!
Verification of the tlsnotaryserver notary against its specification.

Bytes are modelled as natural numbers (values < 256 in every real run), byte
strings as lists of naturals, and bit arrays as lists of naturals with
entries 0/1, mirroring the Go types `[]byte` and `[]int`.  Go functions that
can panic are embedded as `Option`-valued functions where `none` marks a
panic.  Functions of the Go standard library (SHA-256, ECDSA, AES) and of
repository packages whose sources are not available here (ghash block
multiplication, masked X-tables) appear as explicit function parameters of
the embeddings that call them; every byte-level decision made by the
repository's own code is embedded concretely.
-/

/-- Big-endian byte representation of a natural, `k` bytes wide; this is the
semantics of `big.Int.FillBytes` on a `k`-byte buffer (for values that fit)
and of `binary.BigEndian.PutUintN`. -/
def natToBEBytes : Nat → Nat → List Nat
  | 0, _ => []
  | k + 1, n => natToBEBytes k (n / 256) ++ [n % 256]

/-- The natural number denoted by a big-endian byte string; this is the
semantics of `big.Int.SetBytes`. -/
def beNat (l : List Nat) : Nat :=
  l.foldl (fun acc b => acc * 256 + b) 0

/-- `utils.XorBytes` from the repository: byte-wise XOR of two equal-length
slices; Go panics when the lengths differ (`none`). -/
def XorBytes (a b : List Nat) : Option (List Nat) :=
  if a.length = b.length then some (List.zipWith (fun x y => x ^^^ y) a b) else none

/-- `utils.BytesToBits` from the repository: interpret the bytes big-endian
(`big.Int.SetBytes`) and list the bits of the value, least significant bit
at index 0, `8 * len` bits in total. -/
def BytesToBits (b : List Nat) : List Nat :=
  (List.range (8 * b.length)).map (fun i => if (beNat b).testBit i then 1 else 0)

/-- The natural number with bit `i` equal to the `i`-th list entry; this is
the value built by the `SetBit` loop of `utils.BitsToBytes`. -/
def bitsNat : List Nat → Nat
  | [] => 0
  | x :: rest => x + 2 * bitsNat rest

/-- `utils.BitsToBytes` from the repository: assemble the bits into a
`big.Int` (the `SetBit` loop; Go panics when an entry is not 0 or 1) and
serialize it big-endian into `ceil(len/8)` bytes with `FillBytes`. -/
def BitsToBytes (b : List Nat) : Option (List Nat) :=
  if b.all (fun x => x ≤ 1) then
    some (natToBEBytes ((b.length + 7) / 8) (bitsNat b))
  else none

theorem natToBEBytes_length (k n : Nat) : (natToBEBytes k n).length = k := by
  induction k generalizing n with
  | zero => rfl
  | succ k ih => simp [natToBEBytes, ih]

theorem beNat_append_singleton (l : List Nat) (x : Nat) :
    beNat (l ++ [x]) = beNat l * 256 + x := by
  simp [beNat, List.foldl_append]

theorem beNat_natToBEBytes (k n : Nat) (h : n < 256 ^ k) :
    beNat (natToBEBytes k n) = n := by
  induction k generalizing n with
  | zero =>
    simp [natToBEBytes, beNat]
    omega
  | succ k ih =>
    have hdiv : n / 256 < 256 ^ k := by
      rw [Nat.div_lt_iff_lt_mul (by norm_num)]
      calc n < 256 ^ (k + 1) := h
        _ = 256 ^ k * 256 := by ring
    rw [natToBEBytes, beNat_append_singleton, ih _ hdiv]
    omega

theorem bitsNat_lt (l : List Nat) (h : ∀ x ∈ l, x ≤ 1) :
    bitsNat l < 2 ^ l.length := by
  induction l with
  | nil => simp [bitsNat]
  | cons x rest ih =>
    have hx : x ≤ 1 := h x (by simp)
    have hr : bitsNat rest < 2 ^ rest.length := ih (fun y hy => h y (by simp [hy]))
    simp only [bitsNat, List.length_cons, pow_succ]
    omega

theorem bitsNat_testBit (l : List Nat) (h : ∀ x ∈ l, x ≤ 1) (i : Nat) :
    (if (bitsNat l).testBit i then 1 else 0) = l.getD i 0 := by
  induction l generalizing i with
  | nil => simp [bitsNat]
  | cons x rest ih =>
    have hx : x ≤ 1 := h x (by simp)
    have hrest : ∀ y ∈ rest, y ≤ 1 := fun y hy => h y (by simp [hy])
    cases i with
    | zero =>
      have hmod : (x + 2 * bitsNat rest) % 2 = x := by omega
      simp only [bitsNat, Nat.testBit_zero, hmod, List.getD_cons_zero]
      interval_cases x <;> simp
    | succ i =>
      have hdiv : (x + 2 * bitsNat rest) / 2 = bitsNat rest := by omega
      simp only [bitsNat, Nat.testBit_succ, hdiv, List.getD_cons_succ]
      exact ih hrest i

theorem range_map_getD (l : List Nat) (m : Nat) (h : l.length ≤ m) :
    (List.range m).map (fun i => l.getD i 0) =
      l ++ List.replicate (m - l.length) 0 := by
  induction l generalizing m with
  | nil =>
    simp only [List.nil_append, List.length_nil, Nat.sub_zero]
    induction m with
    | zero => simp
    | succ m ihm =>
      rw [List.range_succ]
      simp only [List.map_append, ihm (Nat.zero_le m)]
      simp [List.replicate_succ']
  | cons x rest ih =>
    cases m with
    | zero => simp at h
    | succ m =>
      rw [List.range_succ_eq_map]
      simp only [List.map_cons, List.getD_cons_zero, List.map_map]
      have hmap : (List.range m).map ((fun i => (x :: rest).getD i 0) ∘ Nat.succ) =
          (List.range m).map (fun i => rest.getD i 0) := by
        apply List.map_congr_left
        intro a _
        simp
      rw [hmap, ih m (by simpa using h)]
      simp [List.length_cons, Nat.succ_sub_succ]

/-- C8: `BytesToBits ∘ BitsToBytes` is the identity on 0/1 arrays whose
length is a multiple of 8, and pads with zero bits in the high positions
otherwise (`BitsToBytes` zero-pads the most significant bits of its last
byte, so re-encoding appends zeros above the original bit sequence). -/
theorem bits_bytes_roundtrip (b : List Nat) (h : ∀ x ∈ b, x ≤ 1) :
    (BitsToBytes b).map BytesToBits =
      some (b ++ List.replicate (8 * ((b.length + 7) / 8) - b.length) 0) ∧
    (b.length % 8 = 0 → (BitsToBytes b).map BytesToBits = some b) := by
  have hall : b.all (fun x => x ≤ 1) = true := by
    rw [List.all_eq_true]
    intro x hx
    simpa using h x hx
  have hlen : b.length ≤ 8 * ((b.length + 7) / 8) := by omega
  have hfit : bitsNat b < 256 ^ ((b.length + 7) / 8) := by
    calc bitsNat b < 2 ^ b.length := bitsNat_lt b h
      _ ≤ 2 ^ (8 * ((b.length + 7) / 8)) := Nat.pow_le_pow_right (by norm_num) hlen
      _ = 256 ^ ((b.length + 7) / 8) := by
          rw [Nat.pow_mul]
  have hmain : (BitsToBytes b).map BytesToBits =
      some (b ++ List.replicate (8 * ((b.length + 7) / 8) - b.length) 0) := by
    rw [BitsToBytes, if_pos hall]
    simp only [Option.map_some']
    congr 1
    rw [BytesToBits, natToBEBytes_length, beNat_natToBEBytes _ _ hfit]
    have hpoint : (List.range (8 * ((b.length + 7) / 8))).map
        (fun i => if (bitsNat b).testBit i then 1 else 0) =
        (List.range (8 * ((b.length + 7) / 8))).map (fun i => b.getD i 0) := by
      apply List.map_congr_left
      intro i _
      exact bitsNat_testBit b h i
    rw [hpoint, range_map_getD b _ hlen]
  refine ⟨hmain, fun hmod => ?_⟩
  rw [hmain]
  congr 1
  have hz : 8 * ((b.length + 7) / 8) - b.length = 0 := by omega
  rw [hz, List.replicate_zero, List.append_nil]

theorem zipWith_xor_cancel (a : List Nat) :
    ∀ b : List Nat, a.length = b.length →
      List.zipWith (fun x y => x ^^^ y) (List.zipWith (fun x y => x ^^^ y) a b) b = a := by
  induction a with
  | nil => intro b _; simp
  | cons x rest ih =>
    intro b hb
    cases b with
    | nil => simp at hb
    | cons y t =>
      simp only [List.zipWith_cons_cons, List.cons.injEq]
      refine ⟨?_, ih t (by simpa using hb)⟩
      rw [Nat.xor_assoc, Nat.xor_self, Nat.xor_zero]

/-- C9: XOR-ing twice with the same byte string is the identity
(`XorBytes(XorBytes(a, b), b) = a` for equal lengths), and `XorBytes`
panics (`none`) when the lengths differ. -/
theorem xorBytes_involution (a b : List Nat) :
    (a.length = b.length →
      (XorBytes a b).bind (fun c => XorBytes c b) = some a) ∧
    (a.length ≠ b.length → XorBytes a b = none) := by
  constructor
  · intro h
    have hlen : (List.zipWith (fun x y => x ^^^ y) a b).length = b.length := by
      simp [List.length_zipWith, h]
    simp [XorBytes, h, hlen, zipWith_xor_cancel a b h]
  · intro h
    simp [XorBytes, h]

/-- Witness for `xorBytes_involution` at concrete inputs. -/
theorem xorBytes_involution_case :
    (XorBytes [1, 2] [3, 4]).bind (fun c => XorBytes c [3, 4]) = some [1, 2] ∧
    XorBytes [1] [] = none :=
  ⟨(xorBytes_involution [1, 2] [3, 4]).1 (by decide),
   (xorBytes_involution [1] []).2 (by decide)⟩

/-- `utils.Contains` from the repository: linear membership scan over a
list of ints. -/
def Contains (n : Int) : List Int → Bool
  | [] => false
  | v :: rest => if v = n then true else Contains n rest

theorem Contains_iff (n : Int) (h : List Int) : Contains n h = true ↔ n ∈ h := by
  induction h with
  | nil => simp [Contains]
  | cons v rest ih =>
    by_cases hv : v = n
    · simp [Contains, hv]
    · have hv' : ¬ n = v := fun hh => hv hh.symm
      simp [Contains, hv, ih, hv']

/-- `Session.sequenceCheck` from session.go: a panic is `none`, a normal
return is `some` of the updated `msgsSeen` list.  seqNo 100
(GetUploadProgress) is accepted without being recorded whenever 4 was seen
and 9 was not; any other seqNo panics when repeated, and requires seqNo−1
to have been seen unless seqNo ∈ {1,3,4} or seqNo = 34 with 32 seen. -/
def sequenceCheck (seqNo : Int) (msgsSeen : List Int) : Option (List Int) :=
  if seqNo = 100 then
    if Contains 4 msgsSeen && ! Contains 9 msgsSeen then some msgsSeen
    else none
  else if Contains seqNo msgsSeen then none
  else if ! Contains (seqNo - 1) msgsSeen &&
      ! (Contains seqNo [1, 3, 4] || (seqNo == 34 && Contains 32 msgsSeen)) then
    none
  else some (msgsSeen ++ [seqNo])

/-- Run a whole sequence of incoming messages through `sequenceCheck`,
threading the `msgsSeen` state; any panic aborts the session (`none`). -/
def runSeq : List Int → List Int → Option (List Int)
  | [], seen => some seen
  | m :: rest, seen => (sequenceCheck m seen).bind (runSeq rest)

theorem sequenceCheck_eq_some (seqNo : Int) (seen seen' : List Int)
    (h : sequenceCheck seqNo seen = some seen') :
    (seqNo = 100 ∧ seen' = seen) ∨
    (seqNo ≠ 100 ∧ seqNo ∉ seen ∧ seen' = seen ++ [seqNo]) := by
  by_cases h100 : seqNo = 100
  · left
    refine ⟨h100, ?_⟩
    rw [sequenceCheck, if_pos h100] at h
    by_cases hc : (Contains 4 seen && ! Contains 9 seen) = true
    · rw [if_pos hc] at h
      exact (Option.some_inj.mp h).symm
    · rw [if_neg hc] at h
      exact absurd h (by simp)
  · right
    refine ⟨h100, ?_⟩
    rw [sequenceCheck, if_neg h100] at h
    by_cases hmem : Contains seqNo seen = true
    · rw [if_pos hmem] at h
      exact absurd h (by simp)
    · rw [if_neg hmem] at h
      have hnotmem : seqNo ∉ seen := fun hx => hmem ((Contains_iff _ _).mpr hx)
      by_cases hp : (! Contains (seqNo - 1) seen &&
          ! (Contains seqNo [1, 3, 4] || (seqNo == 34 && Contains 32 seen))) = true
      · rw [if_pos hp] at h
        exact absurd h (by simp)
      · rw [if_neg hp] at h
        exact ⟨hnotmem, (Option.some_inj.mp h).symm⟩

theorem runSeq_count (msgs : List Int) :
    ∀ seen final, runSeq msgs seen = some final → ∀ m : Int, m ≠ 100 →
      (m ∈ seen → msgs.count m = 0) ∧ msgs.count m ≤ 1 := by
  induction msgs with
  | nil => intro seen final _ m _; simp
  | cons x rest ih =>
    intro seen final hrun m hm
    rw [runSeq] at hrun
    rcases Option.bind_eq_some.mp hrun with ⟨seen1, hstep, hrest⟩
    rcases sequenceCheck_eq_some x seen seen1 hstep with ⟨hx100, hs⟩ | ⟨hx100, hxnot, hs⟩
    · subst hs
      have hxm : m ≠ x := fun he => hm (he.symm ▸ hx100)
      rw [List.count_cons_of_ne hxm]
      exact ih _ final hrest m hm
    · subst hs
      have hih := ih (seen ++ [x]) final hrest m hm
      by_cases hxm : x = m
      · subst hxm
        have hzero : rest.count x = 0 := hih.1 (by simp)
        constructor
        · intro hmem
          exact absurd hmem hxnot
        · rw [List.count_cons_self, hzero]
      · have hxm' : m ≠ x := fun he => hxm he.symm
        rw [List.count_cons_of_ne hxm']
        refine ⟨fun hmem => hih.1 (by simp [hmem]), hih.2⟩

/-- C3: full characterization of `sequenceCheck`.  (1) seqNo 100 is accepted,
without being recorded, exactly when 4 was seen and 9 was not; (2) a repeated
seqNo ≠ 100 panics; (3) a fresh seqNo ≠ 100 is accepted (and appended to
`msgsSeen`) exactly when seqNo−1 was seen, or seqNo ∈ {1,3,4}, or seqNo = 34
with 32 seen; (4) along any panic-free run, every seqNo ≠ 100 is processed at
most once. -/
theorem sequenceCheck_spec (seqNo : Int) (seen : List Int) :
    (sequenceCheck 100 seen = if 4 ∈ seen ∧ 9 ∉ seen then some seen else none) ∧
    (seqNo ≠ 100 → seqNo ∈ seen → sequenceCheck seqNo seen = none) ∧
    (seqNo ≠ 100 → seqNo ∉ seen →
      sequenceCheck seqNo seen =
        if seqNo - 1 ∈ seen ∨ seqNo = 1 ∨ seqNo = 3 ∨ seqNo = 4 ∨
            (seqNo = 34 ∧ 32 ∈ seen)
          then some (seen ++ [seqNo]) else none) ∧
    (∀ msgs final, runSeq msgs seen = some final → ∀ m : Int, m ≠ 100 →
      (m ∈ seen → msgs.count m = 0) ∧ msgs.count m ≤ 1) := by
  refine ⟨?_, ?_, ?_, fun msgs final h m hm => runSeq_count msgs seen final h m hm⟩
  · rw [sequenceCheck, if_pos rfl]
    by_cases h4 : 4 ∈ seen
    · by_cases h9 : 9 ∈ seen
      · have : ¬ (4 ∈ seen ∧ 9 ∉ seen) := fun hx => hx.2 h9
        simp [Contains_iff, h4, h9, this]
      · simp [Contains_iff, h4, h9]
    · have : ¬ (4 ∈ seen ∧ 9 ∉ seen) := fun hx => h4 hx.1
      simp [Contains_iff, h4, this]
  · intro h100 hmem
    rw [sequenceCheck, if_neg h100, if_pos ((Contains_iff _ _).mpr hmem)]
  · intro h100 hnot
    have hnotc : Contains seqNo seen = false :=
      Bool.eq_false_iff.mpr (fun hx => hnot ((Contains_iff _ _).mp hx))
    rw [sequenceCheck, if_neg h100, hnotc]
    by_cases hcond : seqNo - 1 ∈ seen ∨ seqNo = 1 ∨ seqNo = 3 ∨ seqNo = 4 ∨
        (seqNo = 34 ∧ 32 ∈ seen)
    · rw [if_pos hcond]
      rcases hcond with hprev | h1 | h3 | h4 | ⟨h34, h32⟩
      · simp [(Contains_iff _ _).mpr hprev]
      · subst h1; simp [Contains]
      · subst h3; simp [Contains]
      · subst h4; simp [Contains]
      · subst h34
        simp [(Contains_iff (32 : Int) seen).mpr h32]
    · rw [if_neg hcond]
      push_neg at hcond
      obtain ⟨hprev, h1, h3, h4, h34⟩ := hcond
      have hprevc : Contains (seqNo - 1) seen = false :=
        Bool.eq_false_iff.mpr (fun hx => hprev ((Contains_iff _ _).mp hx))
      have hlistc : Contains seqNo [1, 3, 4] = false := by
        have : seqNo ∉ ([1, 3, 4] : List Int) := by
          intro hmem
          simp only [List.mem_cons, List.not_mem_nil, or_false] at hmem
          rcases hmem with h | h | h
          exacts [h1 h, h3 h, h4 h]
        exact Bool.eq_false_iff.mpr (fun hx => this ((Contains_iff _ _).mp hx))
      by_cases hx34 : seqNo = 34
      · subst hx34
        have h32 : (32 : Int) ∉ seen := h34 rfl
        have h32c : Contains 32 seen = false :=
          Bool.eq_false_iff.mpr (fun hx => h32 ((Contains_iff _ _).mp hx))
        have hprevc' : Contains 33 seen = false := by
          norm_num at hprevc
          exact hprevc
        simp [hprevc', hlistc, h32c]
      · simp [hprevc, hlistc, hx34]

/-- Witness for `sequenceCheck_spec`: concrete accept/reject decisions and a
concrete panic-free run. -/
theorem sequenceCheck_spec_case :
    sequenceCheck 100 [4] = some [4] ∧
    sequenceCheck 5 [4] = some [4, 5] ∧
    sequenceCheck 6 [4] = none ∧
    (((5 : Int) ∈ ([] : List Int) → ([1, 3, 4] : List Int).count 5 = 0) ∧
      ([1, 3, 4] : List Int).count 5 ≤ 1) := by
  refine ⟨?_, ?_, ?_, ?_⟩
  · have h := (sequenceCheck_spec 5 [4]).1
    simpa using h
  · have h := (sequenceCheck_spec 5 [4]).2.2.1 (by decide) (by decide)
    simpa using h
  · have h := (sequenceCheck_spec 6 [4]).2.2.1 (by decide) (by decide)
    simpa using h
  · exact (sequenceCheck_spec 5 []).2.2.2 [1, 3, 4] [1, 3, 4] (by rfl) 5 (by decide)

/-- `StreamCounter.Write` from session.go: the running total is a `uint32`
(`sc.total += uint32(n)` wraps modulo 2^32) and the write panics (`none`)
as soon as the total exceeds 300 MiB = 314572800 bytes.  On success Go
returns `(len(p), nil)` and the counter increment is the only state change;
the model returns the new counter value. -/
def StreamCounterWrite (total n : Nat) : Option Nat :=
  let t := (total + n) % 2 ^ 32
  if t > 314572800 then none else some t

/-- Feed a sequence of write sizes through `StreamCounterWrite`, as
`SetBlob`'s `io.Copy` through the `TeeReader` does (one call per copied
chunk); `none` if any write panics. -/
def StreamCounterRun : List Nat → Nat → Option Nat
  | [], total => some total
  | n :: rest, total => (StreamCounterWrite total n).bind (StreamCounterRun rest)

/-- `Session.GetUploadProgress` pre-encryption reply body: a 4-byte
`binary.BigEndian.PutUint32` of the stream counter (the reply itself is
this body AES-GCM-encrypted to the client). -/
def GetUploadProgress (total : Nat) : List Nat :=
  natToBEBytes 4 total

/-- The 4-byte little-endian encoding named by the spec's blob-roundtrip
scenario, for comparison with what the code produces. -/
def leBytes32 (n : Nat) : List Nat :=
  [n % 256, n / 256 % 256, n / 65536 % 256, n / 16777216 % 256]

theorem StreamCounterRun_ok (writes : List Nat) :
    ∀ total, total + writes.sum ≤ 314572800 →
      StreamCounterRun writes total = some (total + writes.sum) := by
  induction writes with
  | nil => intro total _; simp [StreamCounterRun]
  | cons n rest ih =>
    intro total h
    have hsum : total + (n :: rest).sum = total + n + rest.sum := by
      simp [List.sum_cons]
      omega
    have hn : total + n ≤ 314572800 := by
      simp [List.sum_cons] at h
      omega
    have hmod : (total + n) % 2 ^ 32 = total + n := Nat.mod_eq_of_lt (by omega)
    rw [StreamCounterRun, StreamCounterWrite]
    simp only [hmod]
    rw [if_neg (by omega)]
    rw [Option.some_bind, ih (total + n) (by rw [hsum] at h; omega), hsum]

/-- C10 (amended by nothing, confirmed): with chunked writes as produced by
`io.Copy`'s 32 KiB buffer, a single write succeeds while the cumulative
total stays ≤ 300 MiB, the whole upload succeeds with the counter equal to
the byte total, and the run panics on the first write that pushes the
cumulative total beyond 300 MiB, so blobs larger than 300 MiB are
rejected. -/
theorem streamCounter_limit (writes : List Nat) (hchunk : ∀ n ∈ writes, n ≤ 32768) :
    (∀ total n, n ≤ 32768 → total + n ≤ 314572800 →
      StreamCounterWrite total n = some (total + n)) ∧
    (writes.sum ≤ 314572800 → StreamCounterRun writes 0 = some writes.sum) ∧
    (∀ k, (writes.take k).sum ≤ 314572800 → 314572800 < (writes.take (k + 1)).sum →
      StreamCounterRun (writes.take (k + 1)) 0 = none ∧
      StreamCounterRun writes 0 = none) := by
  refine ⟨?_, ?_, ?_⟩
  · intro total n _ h
    rw [StreamCounterWrite]
    have hmod : (total + n) % 2 ^ 32 = total + n := Nat.mod_eq_of_lt (by omega)
    simp only [hmod]
    rw [if_neg (by omega)]
  · intro h
    have := StreamCounterRun_ok writes 0 (by omega)
    simpa using this
  · intro k hk hk1
    have hklen : k < writes.length := by
      by_contra hge
      push_neg at hge
      rw [List.take_of_length_le hge] at hk
      rw [List.take_of_length_le (by omega)] at hk1
      omega
    have htake : writes.take (k + 1) = writes.take k ++ [writes[k]] := by
      rw [List.take_succ]
      congr 1
      rw [List.getElem?_eq_getElem hklen]
      rfl
    have hrunk : StreamCounterRun (writes.take k) 0 = some (writes.take k).sum := by
      have := StreamCounterRun_ok (writes.take k) 0 (by omega)
      simpa using this
    have happ : ∀ (a b : List Nat) (t : Nat),
        StreamCounterRun (a ++ b) t = (StreamCounterRun a t).bind (StreamCounterRun b) := by
      intro a
      induction a with
      | nil => intro b t; simp [StreamCounterRun]
      | cons x rest ihh =>
        intro b t
        rw [List.cons_append, StreamCounterRun, StreamCounterRun]
        cases StreamCounterWrite t x with
        | none => simp
        | some t' => simp [ihh]
    have hnth : writes[k] ≤ 32768 :=
      hchunk _ (List.getElem_mem hklen)
    have hsumtake : (writes.take (k + 1)).sum = (writes.take k).sum + writes[k] := by
      rw [htake, List.sum_append]
      simp only [List.sum_cons, List.sum_nil]
      omega
    have hfail : StreamCounterWrite (writes.take k).sum writes[k] = none := by
      rw [StreamCounterWrite]
      have hmod : ((writes.take k).sum + writes[k]) % 2 ^ 32 =
          (writes.take k).sum + writes[k] :=
        Nat.mod_eq_of_lt (by omega)
      simp only [hmod]
      rw [if_pos (by omega)]
    have hrun1 : StreamCounterRun (writes.take (k + 1)) 0 = none := by
      rw [htake, happ, hrunk]
      rw [Option.some_bind, StreamCounterRun, hfail, Option.none_bind]
    refine ⟨hrun1, ?_⟩
    have hsplit : writes = writes.take (k + 1) ++ writes.drop (k + 1) :=
      (List.take_append_drop (k + 1) writes).symm
    calc StreamCounterRun writes 0
        = StreamCounterRun (writes.take (k + 1) ++ writes.drop (k + 1)) 0 := by
          rw [← hsplit]
      _ = none := by rw [happ, hrun1, Option.none_bind]

/-- Witness for `streamCounter_limit`: a 1 MiB upload in 32 KiB chunks
succeeds; an upload crossing 300 MiB panics at the crossing write. -/
theorem streamCounter_limit_case :
    StreamCounterRun (List.replicate 32 32768) 0 = some 1048576 ∧
    StreamCounterRun (List.replicate 9600 32768 ++ [1]) 0 = none := by
  have hsum32 : (List.replicate 32 32768 : List Nat).sum = 1048576 := by
    rw [List.sum_replicate, smul_eq_mul]
  have hsum96 : (List.replicate 9600 32768 : List Nat).sum = 314572800 := by
    rw [List.sum_replicate, smul_eq_mul]
  constructor
  · have hc : ∀ n ∈ (List.replicate 32 32768 : List Nat), n ≤ 32768 := by
      intro n hn
      rw [List.eq_of_mem_replicate hn]
    have h := (streamCounter_limit _ hc).2.1 (by rw [hsum32]; norm_num)
    rw [hsum32] at h
    exact h
  · have hc : ∀ n ∈ (List.replicate 9600 32768 ++ [1] : List Nat), n ≤ 32768 := by
      intro n hn
      rcases List.mem_append.mp hn with hm | hm
      · rw [List.eq_of_mem_replicate hm]
      · rw [List.mem_singleton.mp hm]
        norm_num
    have htk : (List.replicate 9600 32768 ++ [1] : List Nat).take 9600 =
        List.replicate 9600 32768 := by
      rw [List.take_append_of_le_length (by rw [List.length_replicate]),
        List.take_of_length_le (by rw [List.length_replicate])]
    have htk1 : (List.replicate 9600 32768 ++ [1] : List Nat).take 9601 =
        List.replicate 9600 32768 ++ [1] := by
      apply List.take_of_length_le
      rw [List.length_append, List.length_replicate, List.length_singleton]
    exact ((streamCounter_limit _ hc).2.2 9600
      (by rw [htk, hsum96])
      (by rw [htk1, List.sum_append, hsum96]; norm_num)).2

/-- C6 counterexample: the spec's blob-roundtrip scenario calls for a
little-endian u32, but `GetUploadProgress` writes the counter with
`binary.BigEndian.PutUint32`; at N = 1048576 (a 1 MiB upload) the reply
body is [0,16,0,0], not the little-endian [0,0,16,0]. -/
theorem getUploadProgress_le_counterexample :
    GetUploadProgress 1048576 = [0, 16, 0, 0] ∧
    leBytes32 1048576 = [0, 0, 16, 0] ∧
    GetUploadProgress 1048576 ≠ leBytes32 1048576 := by decide

/-- C6 (amended to big-endian): after an upload of N bytes in total
(N within the 300 MiB cap), the upload succeeds with counter N and the
pre-encryption reply body of `GetUploadProgress` is a 4-byte big-endian
u32 equal to N. -/
theorem getUploadProgress_spec (writes : List Nat) (N : Nat)
    (hsum : writes.sum = N) (hbound : N ≤ 314572800) :
    StreamCounterRun writes 0 = some N ∧
    (GetUploadProgress N).length = 4 ∧
    beNat (GetUploadProgress N) = N := by
  refine ⟨?_, natToBEBytes_length 4 N, beNat_natToBEBytes 4 N ?_⟩
  · subst hsum
    have := StreamCounterRun_ok writes 0 (by omega)
    simpa using this
  · have h4 : (256 : Nat) ^ 4 = 4294967296 := by norm_num
    omega

/-- Witness for `getUploadProgress_spec` at N = 1 MiB. -/
theorem getUploadProgress_spec_case :
    StreamCounterRun [1048576] 0 = some 1048576 ∧
    (GetUploadProgress 1048576).length = 4 ∧
    beNat (GetUploadProgress 1048576) = 1048576 :=
  getUploadProgress_spec [1048576] 1048576 (by simp) (by norm_num)

/-- `utils.Concat` from the repository: concatenation of byte slices. -/
def Concat (slices : List (List Nat)) : List Nat :=
  slices.join

/-- `utils.To32Bytes`: 32-byte big-endian `FillBytes` of a big.Int (ECDSA
r and s always fit; Go would panic otherwise). -/
def to32Bytes (n : Nat) : List Nat :=
  natToBEBytes 32 n

/-- `utils.ECDSASign` from the repository: concatenate all items, SHA-256
the concatenation, ECDSA-sign the digest, and return the big-endian
32-byte r followed by the big-endian 32-byte s.  The Go standard library
primitives are parameters: `sha256` is `crypto/sha256.Sum256` and `signRS`
is `crypto/ecdsa.Sign` with the session key and randomness fixed. -/
def ECDSASign (sha256 : List Nat → List Nat) (signRS : List Nat → Nat × Nat)
    (items : List (List Nat)) : List Nat :=
  let digest := sha256 (Concat items)
  let rs := signRS digest
  to32Bytes rs.1 ++ to32Bytes rs.2

/-- The session fields read by `Session.CommitHash` (all retained from
earlier steps). -/
structure SessionShares where
  ghashInputsBlob : List Nat
  serverPubkey : List Nat
  notaryPMSShare : List Nat
  cwkShare : List Nat
  civShare : List Nat
  swkShare : List Nat
  sivShare : List Nat

/-- `Session.CommitHash` from session.go, pre-encryption: `body` is the
already-decrypted request, `now` is `time.Now().Unix()`, and the result is
the plaintext handed to `encryptToClient` (Go panics, `none`, when the
body is shorter than the three 32-byte hashes it slices). -/
def CommitHash (sha256 : List Nat → List Nat) (signRS : List Nat → Nat × Nat)
    (st : SessionShares) (body : List Nat) (now : Nat) : Option (List Nat) :=
  if 96 ≤ body.length then
    let hisCommitHash := body.take 32
    let hisKeyShareHash := (body.drop 32).take 32
    let hisPMSShareHash := (body.drop 64).take 32
    let timeBytes := natToBEBytes 8 now
    let signature := ECDSASign sha256 signRS
      [hisCommitHash, hisKeyShareHash, hisPMSShareHash, st.ghashInputsBlob,
        st.serverPubkey, st.notaryPMSShare, st.cwkShare, st.civShare,
        st.swkShare, st.sivShare, timeBytes]
    some (Concat [signature, st.notaryPMSShare, st.cwkShare, st.civShare,
      st.swkShare, st.sivShare, timeBytes])
  else none

theorem append_take_drop_of_length (a b : List Nat) (n : Nat) (h : a.length = n) :
    (a ++ b).take n = a ∧ (a ++ b).drop n = b := by
  subst h
  exact ⟨List.take_left a b, List.drop_left a b⟩

/-- C1: at step 35, `CommitHash` signs SHA-256 of
client_commit_hash ‖ client_key_share_hash ‖ client_pms_share_hash ‖
ghashInputsBlob ‖ serverPubkey ‖ notaryPMSShare ‖ cwkShare ‖ civShare ‖
swkShare ‖ sivShare ‖ timestamp (the current Unix time as a big-endian
u64); the signature is the big-endian 32-byte r followed by the big-endian
32-byte s, and the pre-encryption reply body is
signature[64] ‖ notaryPMSShare[32] ‖ cwkShare[16] ‖ civShare[4] ‖
swkShare[16] ‖ sivShare[4] ‖ timestamp[8]. -/
theorem commitHash_spec (sha256 : List Nat → List Nat)
    (signRS : List Nat → Nat × Nat) (st : SessionShares) (body : List Nat)
    (now : Nat) (hbody : 96 ≤ body.length)
    (hpms : st.notaryPMSShare.length = 32) (hcwk : st.cwkShare.length = 16)
    (hciv : st.civShare.length = 4) (hswk : st.swkShare.length = 16)
    (hsiv : st.sivShare.length = 4) :
    ∃ out r s,
      signRS (sha256 (body.take 32 ++ (body.drop 32).take 32 ++
        (body.drop 64).take 32 ++ st.ghashInputsBlob ++ st.serverPubkey ++
        st.notaryPMSShare ++ st.cwkShare ++ st.civShare ++ st.swkShare ++
        st.sivShare ++ natToBEBytes 8 now)) = (r, s) ∧
      CommitHash sha256 signRS st body now = some out ∧
      out = natToBEBytes 32 r ++ natToBEBytes 32 s ++ st.notaryPMSShare ++
        st.cwkShare ++ st.civShare ++ st.swkShare ++ st.sivShare ++
        natToBEBytes 8 now ∧
      out.length = 144 ∧
      out.take 64 = natToBEBytes 32 r ++ natToBEBytes 32 s ∧
      (out.drop 64).take 32 = st.notaryPMSShare ∧
      (out.drop 96).take 16 = st.cwkShare ∧
      (out.drop 112).take 4 = st.civShare ∧
      (out.drop 116).take 16 = st.swkShare ∧
      (out.drop 132).take 4 = st.sivShare ∧
      out.drop 136 = natToBEBytes 8 now := by
  obtain ⟨r0, s0, hrs⟩ : ∃ r0 s0, signRS (sha256 (body.take 32 ++
      (body.drop 32).take 32 ++ (body.drop 64).take 32 ++ st.ghashInputsBlob ++
      st.serverPubkey ++ st.notaryPMSShare ++ st.cwkShare ++ st.civShare ++
      st.swkShare ++ st.sivShare ++ natToBEBytes 8 now)) = (r0, s0) :=
    ⟨_, _, rfl⟩
  have hrs' := hrs
  simp only [List.append_assoc] at hrs'
  have hch : CommitHash sha256 signRS st body now =
      some (natToBEBytes 32 r0 ++ natToBEBytes 32 s0 ++ st.notaryPMSShare ++
        st.cwkShare ++ st.civShare ++ st.swkShare ++ st.sivShare ++
        natToBEBytes 8 now) := by
    simp only [CommitHash, if_pos hbody, ECDSASign, Concat, to32Bytes,
      List.join_cons, List.join_nil, List.append_nil, List.append_assoc]
    rw [hrs']
  have hassoc : (natToBEBytes 32 r0 ++ natToBEBytes 32 s0 ++ st.notaryPMSShare ++
      st.cwkShare ++ st.civShare ++ st.swkShare ++ st.sivShare ++
      natToBEBytes 8 now) =
      (natToBEBytes 32 r0 ++ natToBEBytes 32 s0) ++ (st.notaryPMSShare ++
      st.cwkShare ++ st.civShare ++ st.swkShare ++ st.sivShare ++
      natToBEBytes 8 now) := by
    simp [List.append_assoc]
  have h64 := append_take_drop_of_length
    (natToBEBytes 32 r0 ++ natToBEBytes 32 s0)
    (st.notaryPMSShare ++ st.cwkShare ++ st.civShare ++ st.swkShare ++
      st.sivShare ++ natToBEBytes 8 now) 64
    (by simp [natToBEBytes_length])
  have ht64 : (natToBEBytes 32 r0 ++ natToBEBytes 32 s0 ++ st.notaryPMSShare ++
      st.cwkShare ++ st.civShare ++ st.swkShare ++ st.sivShare ++
      natToBEBytes 8 now).take 64 = natToBEBytes 32 r0 ++ natToBEBytes 32 s0 := by
    rw [hassoc]
    exact h64.1
  have hd64 : (natToBEBytes 32 r0 ++ natToBEBytes 32 s0 ++ st.notaryPMSShare ++
      st.cwkShare ++ st.civShare ++ st.swkShare ++ st.sivShare ++
      natToBEBytes 8 now).drop 64 = st.notaryPMSShare ++ st.cwkShare ++
      st.civShare ++ st.swkShare ++ st.sivShare ++ natToBEBytes 8 now := by
    rw [hassoc]
    exact h64.2
  have hassoc2 : st.notaryPMSShare ++ st.cwkShare ++ st.civShare ++
      st.swkShare ++ st.sivShare ++ natToBEBytes 8 now =
      st.notaryPMSShare ++ (st.cwkShare ++ st.civShare ++ st.swkShare ++
      st.sivShare ++ natToBEBytes 8 now) := by
    simp [List.append_assoc]
  have hassoc3 : st.cwkShare ++ st.civShare ++ st.swkShare ++ st.sivShare ++
      natToBEBytes 8 now =
      st.cwkShare ++ (st.civShare ++ st.swkShare ++ st.sivShare ++
      natToBEBytes 8 now) := by
    simp [List.append_assoc]
  have hassoc4 : st.civShare ++ st.swkShare ++ st.sivShare ++
      natToBEBytes 8 now =
      st.civShare ++ (st.swkShare ++ st.sivShare ++ natToBEBytes 8 now) := by
    simp [List.append_assoc]
  have hassoc5 : st.swkShare ++ st.sivShare ++ natToBEBytes 8 now =
      st.swkShare ++ (st.sivShare ++ natToBEBytes 8 now) := by
    simp [List.append_assoc]
  have hd96 : (natToBEBytes 32 r0 ++ natToBEBytes 32 s0 ++ st.notaryPMSShare ++
      st.cwkShare ++ st.civShare ++ st.swkShare ++ st.sivShare ++
      natToBEBytes 8 now).drop 96 = st.cwkShare ++ st.civShare ++ st.swkShare ++
      st.sivShare ++ natToBEBytes 8 now := by
    rw [show (96 : Nat) = 64 + 32 from rfl, ← List.drop_drop, hd64, hassoc2]
    exact (append_take_drop_of_length st.notaryPMSShare _ 32 hpms).2
  have hd112 : (natToBEBytes 32 r0 ++ natToBEBytes 32 s0 ++ st.notaryPMSShare ++
      st.cwkShare ++ st.civShare ++ st.swkShare ++ st.sivShare ++
      natToBEBytes 8 now).drop 112 = st.civShare ++ st.swkShare ++
      st.sivShare ++ natToBEBytes 8 now := by
    rw [show (112 : Nat) = 96 + 16 from rfl, ← List.drop_drop, hd96, hassoc3]
    exact (append_take_drop_of_length st.cwkShare _ 16 hcwk).2
  have hd116 : (natToBEBytes 32 r0 ++ natToBEBytes 32 s0 ++ st.notaryPMSShare ++
      st.cwkShare ++ st.civShare ++ st.swkShare ++ st.sivShare ++
      natToBEBytes 8 now).drop 116 = st.swkShare ++ st.sivShare ++
      natToBEBytes 8 now := by
    rw [show (116 : Nat) = 112 + 4 from rfl, ← List.drop_drop, hd112, hassoc4]
    exact (append_take_drop_of_length st.civShare _ 4 hciv).2
  have hd132 : (natToBEBytes 32 r0 ++ natToBEBytes 32 s0 ++ st.notaryPMSShare ++
      st.cwkShare ++ st.civShare ++ st.swkShare ++ st.sivShare ++
      natToBEBytes 8 now).drop 132 = st.sivShare ++ natToBEBytes 8 now := by
    rw [show (132 : Nat) = 116 + 16 from rfl, ← List.drop_drop, hd116, hassoc5]
    exact (append_take_drop_of_length st.swkShare _ 16 hswk).2
  have hd136 : (natToBEBytes 32 r0 ++ natToBEBytes 32 s0 ++ st.notaryPMSShare ++
      st.cwkShare ++ st.civShare ++ st.swkShare ++ st.sivShare ++
      natToBEBytes 8 now).drop 136 = natToBEBytes 8 now := by
    rw [show (136 : Nat) = 132 + 4 from rfl, ← List.drop_drop, hd132]
    exact (append_take_drop_of_length st.sivShare _ 4 hsiv).2
  refine ⟨_, r0, s0, hrs, hch, rfl, ?_, ht64, ?_, ?_, ?_, ?_, ?_, hd136⟩
  · simp only [List.length_append, natToBEBytes_length, hpms, hcwk, hciv,
      hswk, hsiv]
  · rw [hd64, hassoc2]
    exact (append_take_drop_of_length st.notaryPMSShare _ 32 hpms).1
  · rw [hd96, hassoc3]
    exact (append_take_drop_of_length st.cwkShare _ 16 hcwk).1
  · rw [hd112, hassoc4]
    exact (append_take_drop_of_length st.civShare _ 4 hciv).1
  · rw [hd116, hassoc5]
    exact (append_take_drop_of_length st.swkShare _ 16 hswk).1
  · rw [hd132]
    exact (append_take_drop_of_length st.sivShare _ 4 hsiv).1

/-- Witness for `commitHash_spec` at a concrete session and body. -/
theorem commitHash_spec_case :
    ∃ out, CommitHash (fun _ => []) (fun _ => (5, 7))
      ⟨[], [], List.replicate 32 1, List.replicate 16 2, List.replicate 4 3,
        List.replicate 16 4, List.replicate 4 5⟩ (List.replicate 96 9)
      1700000000 = some out ∧ out.length = 144 := by
  obtain ⟨out, r, s, _, hch, _, hlen, _⟩ :=
    commitHash_spec (fun _ => []) (fun _ => (5, 7))
      ⟨[], [], List.replicate 32 1, List.replicate 16 2, List.replicate 4 3,
        List.replicate 16 4, List.replicate 4 5⟩ (List.replicate 96 9)
      1700000000 (by simp) (by simp) (by simp) (by simp) (by simp) (by simp)
  exact ⟨out, hch, hlen⟩

/-- `utils.SplitIntoChunks`: split into `len/chunkSize` chunks of
`chunkSize` bytes; Go panics when `chunkSize` is zero (division by zero)
or does not divide the length. -/
def SplitIntoChunks (data : List Nat) (chunkSize : Nat) :
    Option (List (List Nat)) :=
  if chunkSize = 0 then none
  else if data.length % chunkSize ≠ 0 then none
  else some ((List.range (data.length / chunkSize)).map
    (fun i => (data.drop (i * chunkSize)).take chunkSize))

/-- The ascending `for i := 0; i < n` loop collecting one optional result
per iteration, aborting on the first panic. -/
def optMapRange (f : Nat → Option (List Nat)) : Nat → Option (List (List Nat))
  | 0 => some []
  | n + 1 => do
      let front ← optMapRange f n
      let last ← f n
      pure (front ++ [last])

/-- Static circuit metadata (package `notary/meta`), with exactly the
fields session.go reads. -/
structure CircuitMeta where
  AndGateCount : Nat
  ClientInputSize : Nat
  OutputSize : Nat
  OutputsSizes : List Nat

/-- The `for _, v := range OutputsSizes` loop of
`Session.parseOutputBits`: slice `outBits[o:o+v]` (Go panics past the
end), convert to bytes, and thread the offset. -/
def outputsFold : List Nat → Nat → List Nat → Option (List Nat × Nat)
  | [], o, _ => some ([], o)
  | v :: rest, o, outBits =>
    if o + v ≤ outBits.length then
      do
        let bytes ← BitsToBytes ((outBits.drop o).take v)
        let r ← outputsFold rest (o + v) outBits
        pure (bytes ++ r.1, r.2)
    else none

/-- `Session.parseOutputBits`: convert the circuit's output bits into
bytes, one field per entry of `OutputsSizes`; Go panics unless the
offsets exactly exhaust `OutputSize`. -/
def parseOutputBits (c : CircuitMeta) (outBits : List Nat) :
    Option (List Nat) := do
  let r ← outputsFold c.OutputsSizes 0 outBits
  if r.2 = c.OutputSize then pure r.1 else none

/-- `Session.parsePlaintextOutput`: split the plaintext into one chunk per
circuit execution, decompose each chunk into bits, drop the MSB padding
above `OutputSize`, and parse the output fields; `exeCount` is
`[0,1,1,1,1,1,C6Count,1][cNo]` (a zero count panics in Go with a division
by zero). -/
def parsePlaintextOutput (c : CircuitMeta) (exeCount : Nat)
    (ptBytes : List Nat) : Option (List Nat) :=
  if exeCount = 0 then none
  else do
    let chunks ← SplitIntoChunks ptBytes (ptBytes.length / exeCount)
    let outs ← optMapRange (fun i =>
      match chunks[i]? with
      | none => none
      | some chunk =>
        let bits := BytesToBits chunk
        if c.OutputSize ≤ bits.length then
          parseOutputBits c (bits.take c.OutputSize)
        else none) exeCount
    pure outs.join

/-- The per-circuit session state read by `Session.processDecommit`:
the client's stored commitment, the notary's encoded output and decoding
tables for circuit `cNo`, and the circuit metadata with its execution
count. -/
structure DecommitState where
  hisCommitment : List Nat
  encodedOutput : List Nat
  dt : List (List Nat)
  cMeta : CircuitMeta
  exeCount : Nat

/-- `Session.processDecommit` from session.go: parse the decommitment into
`hisEncodedOutput ‖ hisDecodingTable ‖ hisSalt[32]` (Go panics on any
length mismatch), check the SHA-256 commitment, decode both outputs and
check they agree, then parse the notary's plaintext.  `sha256` is the
`crypto/sha256` parameter; any failed check is a panic (`none`), and the
function reads but never writes the session state. -/
def processDecommit (sha256 : List Nat → List Nat) (st : DecommitState)
    (decommit : List Nat) : Option (List Nat) :=
  let lenEnc := st.encodedOutput.length
  let myDecodingTable := st.dt.join
  let lenDt := myDecodingTable.length
  if lenEnc + lenDt + 32 ≤ decommit.length then
    let hisEncodedOutput := decommit.take lenEnc
    let hisDecodingTable := (decommit.drop lenEnc).take lenDt
    let hisSalt := (decommit.drop (lenEnc + lenDt)).take 32
    do
      let _ ← if lenEnc + lenDt + 32 = decommit.length then some () else none
      let _ ← if st.hisCommitment =
          sha256 (hisEncodedOutput ++ hisDecodingTable ++ hisSalt)
        then some () else none
      let hisPlaintext ← XorBytes myDecodingTable hisEncodedOutput
      let myPlaintext ← XorBytes hisDecodingTable st.encodedOutput
      let _ ← if hisPlaintext = myPlaintext then some () else none
      parsePlaintextOutput st.cMeta st.exeCount myPlaintext
  else none

/-- The state well-formedness that makes `parsePlaintextOutput` total on
inputs of the encoded output's length: a positive execution count and
chunk size, divisibility, enough bits per chunk, and output field sizes
summing to `OutputSize`. -/
def ParseOk (c : CircuitMeta) (exeCount n : Nat) : Prop :=
  exeCount ≠ 0 ∧ n / exeCount ≠ 0 ∧ n % (n / exeCount) = 0 ∧
  c.OutputSize ≤ 8 * (n / exeCount) ∧ c.OutputsSizes.sum = c.OutputSize

theorem BytesToBits_le_one (b : List Nat) : ∀ x ∈ BytesToBits b, x ≤ 1 := by
  intro x hx
  rw [BytesToBits] at hx
  obtain ⟨i, _, hi⟩ := List.mem_map.mp hx
  subst hi
  split <;> omega

theorem BytesToBits_length (b : List Nat) :
    (BytesToBits b).length = 8 * b.length := by
  simp [BytesToBits]

theorem outputsFold_isSome (sizes : List Nat) :
    ∀ o outBits, (∀ x ∈ outBits, x ≤ 1) → o + sizes.sum ≤ outBits.length →
      ∃ bytes, outputsFold sizes o outBits = some (bytes, o + sizes.sum) := by
  induction sizes with
  | nil =>
    intro o outBits _ _
    exact ⟨[], by simp [outputsFold]⟩
  | cons v rest ih =>
    intro o outBits hb hle
    have hsum : (v :: rest).sum = v + rest.sum := by simp
    have hov : o + v ≤ outBits.length := by rw [hsum] at hle; omega
    have hbits : ((outBits.drop o).take v).all (fun x => x ≤ 1) = true := by
      rw [List.all_eq_true]
      intro x hx
      have hx' : x ∈ outBits :=
        List.drop_subset o outBits (List.take_subset _ _ hx)
      simpa using hb x hx'
    obtain ⟨bytes2, hb2⟩ := ih (o + v) outBits hb (by rw [hsum] at hle; omega)
    refine ⟨natToBEBytes ((((outBits.drop o).take v).length + 7) / 8)
      (bitsNat ((outBits.drop o).take v)) ++ bytes2, ?_⟩
    rw [hsum, outputsFold, if_pos hov]
    simp [BitsToBytes, hbits, hb2, Nat.add_assoc]

theorem optMapRange_isSome (f : Nat → Option (List Nat)) :
    ∀ n, (∀ i, i < n → (f i).isSome) → (optMapRange f n).isSome := by
  intro n
  induction n with
  | zero => intro _; simp [optMapRange]
  | succ n ih =>
    intro h
    obtain ⟨front, hf⟩ := Option.isSome_iff_exists.mp (ih (fun i hi => h i (by omega)))
    obtain ⟨last, hl⟩ := Option.isSome_iff_exists.mp (h n (by omega))
    simp [optMapRange, hf, hl]

theorem parseOutputBits_isSome (c : CircuitMeta) (outBits : List Nat)
    (hb : ∀ x ∈ outBits, x ≤ 1) (hlen : c.OutputsSizes.sum ≤ outBits.length)
    (hsum : c.OutputsSizes.sum = c.OutputSize) :
    (parseOutputBits c outBits).isSome := by
  obtain ⟨bytes, hf⟩ := outputsFold_isSome c.OutputsSizes 0 outBits hb (by omega)
  rw [parseOutputBits]
  rw [hf]
  simp [hsum]

theorem parsePlaintextOutput_isSome (c : CircuitMeta) (e : Nat) (l : List Nat)
    (hwf : ParseOk c e l.length) : (parsePlaintextOutput c e l).isSome := by
  obtain ⟨he, hcs, hdvd, hbits, hsum⟩ := hwf
  rw [parsePlaintextOutput, if_neg he]
  have hsplit : SplitIntoChunks l (l.length / e) =
      some ((List.range (l.length / (l.length / e))).map
        (fun i => (l.drop (i * (l.length / e))).take (l.length / e))) := by
    rw [SplitIntoChunks, if_neg hcs, if_neg (by simpa using hdvd)]
  rw [hsplit]
  simp only [Option.pure_def, Option.bind_eq_bind, Option.some_bind]
  have hcount : e ≤ l.length / (l.length / e) := by
    rw [Nat.le_div_iff_mul_le (Nat.pos_of_ne_zero hcs), Nat.mul_comm]
    exact Nat.div_mul_le_self l.length e
  have hmapSome : (optMapRange (fun i =>
      match ((List.range (l.length / (l.length / e))).map
          (fun i => (l.drop (i * (l.length / e))).take (l.length / e)))[i]? with
      | none => none
      | some chunk =>
        let bits := BytesToBits chunk
        if c.OutputSize ≤ bits.length then
          parseOutputBits c (bits.take c.OutputSize)
        else none) e).isSome := by
    apply optMapRange_isSome
    intro i hi
    have hilt : i < ((List.range (l.length / (l.length / e))).map
        (fun i => (l.drop (i * (l.length / e))).take (l.length / e))).length := by
      rw [List.length_map, List.length_range]
      omega
    rw [List.getElem?_eq_getElem hilt]
    simp only [List.getElem_map, List.getElem_range]
    have hchlen : ((l.drop (i * (l.length / e))).take (l.length / e)).length =
        l.length / e := by
      rw [List.length_take, List.length_drop]
      have hmul : l.length / (l.length / e) * (l.length / e) = l.length :=
        Nat.div_mul_cancel (Nat.dvd_of_mod_eq_zero hdvd)
      have hile : (i + 1) * (l.length / e) ≤ l.length := by
        calc (i + 1) * (l.length / e)
            ≤ l.length / (l.length / e) * (l.length / e) :=
              Nat.mul_le_mul_right _ (by omega)
          _ = l.length := hmul
      rw [Nat.succ_mul] at hile
      omega
    have hblen : (BytesToBits ((l.drop (i * (l.length / e))).take
        (l.length / e))).length = 8 * (l.length / e) := by
      rw [BytesToBits_length, hchlen]
    rw [if_pos (by rw [hblen]; exact hbits)]
    apply parseOutputBits_isSome
    · intro x hx
      exact BytesToBits_le_one _ x (List.take_subset _ _ hx)
    · rw [List.length_take, hblen, hsum]
      omega
    · exact hsum
  obtain ⟨outs, houts⟩ := Option.isSome_iff_exists.mp hmapSome
  rw [houts]
  simp

/-- C2: `processDecommit` completes normally exactly when the decommitment
parses (its length is encoded-output-length + decoding-table-length + 32),
the stored commitment equals SHA-256 of
his_encoded_output ‖ his_decoding_table ‖ his_salt as parsed from the
decommitment, and the two decoded plaintexts agree
(`XOR(my_decoding_table, his_encoded_output) =
XOR(his_decoding_table, my_encoded_output)`); any mismatch panics, and the
call reads but never mutates the session state.  The hypotheses say the
decoding table matches the encoded output in length and that the circuit
metadata is well-formed (both hold for every circuit the session runs). -/
theorem processDecommit_spec (sha256 : List Nat → List Nat)
    (st : DecommitState) (decommit : List Nat)
    (hxlen : st.dt.join.length = st.encodedOutput.length)
    (hwf : ParseOk st.cMeta st.exeCount st.encodedOutput.length) :
    (processDecommit sha256 st decommit).isSome ↔
      (decommit.length = st.encodedOutput.length + st.dt.join.length + 32 ∧
       st.hisCommitment = sha256 (decommit.take st.encodedOutput.length ++
         (decommit.drop st.encodedOutput.length).take st.dt.join.length ++
         (decommit.drop (st.encodedOutput.length + st.dt.join.length)).take 32) ∧
       XorBytes st.dt.join (decommit.take st.encodedOutput.length) =
         XorBytes ((decommit.drop st.encodedOutput.length).take st.dt.join.length)
           st.encodedOutput) := by
  constructor
  · intro hs
    obtain ⟨out, hout⟩ := Option.isSome_iff_exists.mp hs
    simp only [processDecommit, Option.pure_def, Option.bind_eq_bind] at hout
    by_cases h1 : st.encodedOutput.length + st.dt.join.length + 32 ≤
        decommit.length
    case neg => rw [if_neg h1] at hout; simp at hout
    rw [if_pos h1] at hout
    by_cases h2 : st.encodedOutput.length + st.dt.join.length + 32 =
        decommit.length
    case neg => rw [if_neg h2] at hout; simp at hout
    rw [if_pos h2, Option.some_bind] at hout
    by_cases h3 : st.hisCommitment = sha256 (decommit.take
        st.encodedOutput.length ++
        (decommit.drop st.encodedOutput.length).take st.dt.join.length ++
        (decommit.drop (st.encodedOutput.length + st.dt.join.length)).take 32)
    case neg => rw [if_neg h3] at hout; simp at hout
    rw [if_pos h3, Option.some_bind] at hout
    rcases Option.bind_eq_some.mp hout with ⟨hp, hhp, hout2⟩
    rcases Option.bind_eq_some.mp hout2 with ⟨mp, hmp, hout3⟩
    have heq : hp = mp := by
      by_cases h : hp = mp
      · exact h
      · rw [if_neg h] at hout3
        simp at hout3
    exact ⟨h2.symm, h3, by rw [hhp, hmp, heq]⟩
  · rintro ⟨h2, h3, h4⟩
    have h1 : st.encodedOutput.length + st.dt.join.length + 32 ≤
        decommit.length := by omega
    have htk : (decommit.take st.encodedOutput.length).length =
        st.encodedOutput.length := by
      rw [List.length_take]
      omega
    have htd : ((decommit.drop st.encodedOutput.length).take
        st.dt.join.length).length = st.dt.join.length := by
      rw [List.length_take, List.length_drop]
      omega
    have hx1 : XorBytes st.dt.join (decommit.take st.encodedOutput.length) =
        some (List.zipWith (fun x y => x ^^^ y) st.dt.join
          (decommit.take st.encodedOutput.length)) := by
      rw [XorBytes, if_pos (by rw [htk, hxlen])]
    have hx2 : XorBytes ((decommit.drop st.encodedOutput.length).take
          st.dt.join.length) st.encodedOutput =
        some (List.zipWith (fun x y => x ^^^ y)
          ((decommit.drop st.encodedOutput.length).take st.dt.join.length)
          st.encodedOutput) := by
      rw [XorBytes, if_pos (by rw [htd, hxlen])]
    have heq : List.zipWith (fun x y => x ^^^ y) st.dt.join
          (decommit.take st.encodedOutput.length) =
        List.zipWith (fun x y => x ^^^ y)
          ((decommit.drop st.encodedOutput.length).take st.dt.join.length)
          st.encodedOutput := by
      have := h4
      rw [hx1, hx2] at this
      exact Option.some_inj.mp this
    have hmplen : (List.zipWith (fun x y => x ^^^ y)
        ((decommit.drop st.encodedOutput.length).take st.dt.join.length)
        st.encodedOutput).length = st.encodedOutput.length := by
      rw [List.length_zipWith, htd, hxlen]
      omega
    have hparse := parsePlaintextOutput_isSome st.cMeta st.exeCount
      (List.zipWith (fun x y => x ^^^ y)
        ((decommit.drop st.encodedOutput.length).take st.dt.join.length)
        st.encodedOutput) (by rw [hmplen]; exact hwf)
    obtain ⟨pout, hpout⟩ := Option.isSome_iff_exists.mp hparse
    simp only [processDecommit, Option.pure_def, Option.bind_eq_bind]
    rw [if_pos h1, if_pos h2.symm, Option.some_bind, if_pos h3,
      Option.some_bind, hx1, Option.some_bind, hx2, Option.some_bind,
      if_pos heq, Option.some_bind, hpout]
    simp

/-- Witness for `processDecommit_spec`: a concrete matching decommitment is
accepted. -/
theorem processDecommit_spec_case :
    (processDecommit (fun l => l)
      ⟨0 :: 5 :: List.replicate 32 7, [0], [[5]], ⟨1, 1, 8, [8]⟩, 1⟩
      (0 :: 5 :: List.replicate 32 7)).isSome :=
  (processDecommit_spec (fun l => l)
      ⟨0 :: 5 :: List.replicate 32 7, [0], [[5]], ⟨1, 1, 8, [8]⟩, 1⟩
      (0 :: 5 :: List.replicate 32 7)
      (by decide) ⟨by decide, by decide, by decide, by decide, by decide⟩).mpr
    (by decide)

/-- The manager-visible data of one session: its scratch directory
(`Session.StorageDir`, empty until `Init` creates it) and the truth-table
temp files drawn from the garbled pool (`Session.Tt`). -/
structure SessData where
  storageDir : String
  ttFiles : List String
deriving DecidableEq

/-- The shared state of `session_manager.SessionManager` together with an
abstract file system: the session map, the OT-owner variable `otOwner`,
the spawned-but-not-yet-completed `ot.Listen` goroutines, and the set of
existing file-system paths. -/
structure MState where
  sessions : List (String × SessData)
  otOwner : String
  pendingListen : List String
  fs : List String

/-- Process start: no sessions, no OT owner, nothing pending. -/
def initialState : MState :=
  ⟨[], "", [], []⟩

/-- Go map lookup on the session map. -/
def lookupSess (k : String) : List (String × SessData) → Option SessData
  | [] => none
  | (k1, sd) :: rest => if k1 = k then some sd else lookupSess k rest

/-- Go map assignment on the session map. -/
def insertSess (k : String) (sd : SessData) (l : List (String × SessData)) :
    List (String × SessData) :=
  (k, sd) :: l.filter (fun e => e.1 != k)

/-- `SessionManager.AddSession`: an existing session under the same key is
only logged; when `otOwner` is non-empty the call returns nil (`false`)
without touching the state; otherwise the session is created and an
`ot.Listen` goroutine is spawned, which records OT ownership only when it
completes later (the `listenDone` event). -/
def AddSession (k : String) (st : MState) : Bool × MState :=
  if st.otOwner ≠ "" then (false, st)
  else (true, { st with
    sessions := insertSess k ⟨"", []⟩ st.sessions,
    pendingListen := st.pendingListen ++ [k] })

/-- The file-system effect of `Session.Init`: create `storage_dir` and take
ownership of the truth-table temp files drawn from the pool. -/
def sessInit (k dir : String) (ttfs : List String) (st : MState) : MState :=
  match lookupSess k st.sessions with
  | none => st
  | some _ => { st with
      sessions := insertSess k ⟨dir, ttfs⟩ st.sessions,
      fs := st.fs ++ dir :: ttfs }

/-- The `init` branch of `httpHandler`: `AddSession` returning nil answers
409 "OT busy"; otherwise the session's `Init` runs and the handler answers
200. -/
def handleInit (k dir : String) (ttfs : List String) (st : MState) :
    Nat × MState :=
  let r := AddSession k st
  if r.1 then (200, sessInit k dir ttfs r.2) else (409, r.2)

/-- Completion of the `ot.Listen` goroutine spawned by `AddSession`: the
spawning session's key is recorded as the OT owner. -/
def listenDone (k : String) (st : MState) : MState :=
  if k ∈ st.pendingListen then
    { st with otOwner := k, pendingListen := st.pendingListen.erase k }
  else st

/-- `monitorOtReleaseChan`: release ownership when the owner asks. -/
def otRelease (k : String) (st : MState) : MState :=
  if st.otOwner = k then { st with otOwner := "" } else st

/-- The file-system effect of `Session.SetBlob`: create `blobForNotary`
under the session's `storage_dir`. -/
def setBlobFile (k : String) (st : MState) : MState :=
  match lookupSess k st.sessions with
  | none => st
  | some sd => { st with fs := st.fs ++ [sd.storageDir ++ "/blobForNotary"] }

/-- `SessionManager.GetSession`: pure lookup. -/
def GetSession (k : String) (st : MState) : Option SessData :=
  lookupSess k st.sessions

/-- `os.RemoveAll(d)` removes the path `d` and everything under it; with
the zero-value `StorageDir` (empty string) it removes nothing. -/
def underDir (d p : String) : Bool :=
  (d != "") && (p == d || p.startsWith (d ++ "/"))

/-- `SessionManager.removeSession`: release the OT if this session owns it,
then (when the session exists) remove `storage_dir` with everything under
it and every truth-table temp file, and delete the session from the map.
It is the single destruction path: completion of `tagVerification`, the
panic handler, the staleness monitor and `Cleanup` all funnel into it. -/
def removeSession (k : String) (st : MState) : MState :=
  let st1 := if st.otOwner = k then { st with otOwner := "" } else st
  match lookupSess k st1.sessions with
  | none => st1
  | some sd =>
    { st1 with
      sessions := st1.sessions.filter (fun e => e.1 != k),
      fs := st1.fs.filter
        (fun p => !(underDir sd.storageDir p) && !(sd.ttFiles.contains p)) }

/-- Interleaving events of the session manager: an `init` HTTP request, an
OT listen completion, an OT release, and a session destruction. -/
inductive MEvent where
  | init (sid dir : String) (ttfs : List String)
  | listen (sid : String)
  | release (sid : String)
  | remove (sid : String)

/-- One event step; only `init` produces an HTTP status. -/
def stepEv : MEvent → MState → Option Nat × MState
  | MEvent.init sid dir ttfs, st =>
    let r := handleInit sid dir ttfs st
    (some r.1, r.2)
  | MEvent.listen sid, st => (none, listenDone sid st)
  | MEvent.release sid, st => (none, otRelease sid st)
  | MEvent.remove sid, st => (none, removeSession sid st)

/-- Run a trace of events, collecting the HTTP statuses. -/
def runTrace : List MEvent → MState → List (Option Nat) × MState
  | [], st => ([], st)
  | e :: rest, st =>
    let r := stepEv e st
    let r2 := runTrace rest r.2
    (r.1 :: r2.1, r2.2)

/-- C4 counterexample: two `init?sid=X` requests both answer 200 when the
second arrives before the OT `Listen` goroutine spawned by the first has
completed — `otOwner` is still empty, so `AddSession` does not refuse.
The claimed responses (200 then 409) are not produced on this trace. -/
theorem double_init_race_counterexample :
    (runTrace [MEvent.init "X" "d1" [], MEvent.init "X" "d2" []]
      initialState).1 = [some 200, some 200] ∧
    [some 200, some 200] ≠ ([some 200, some 409] : List (Option Nat)) := by
  constructor
  · decide
  · decide

/-- C4 (amended): while the OT coordinator is owned (`otOwner` non-empty),
`AddSession` returns nil for any key without touching the state and `init`
answers 409; at most one session owns the OT at any time; and of two
`init?sid=X` requests, the second answers 409 provided the OT listen
spawned by the first completed (recorded ownership) before the second —
without that completion both answer 200. -/
theorem addSession_ot_busy_spec :
    (∀ (k : String) (st : MState), st.otOwner ≠ "" →
      AddSession k st = (false, st)) ∧
    (∀ (k dir : String) (ttfs : List String) (st : MState), st.otOwner ≠ "" →
      handleInit k dir ttfs st = (409, st)) ∧
    (∀ (st : MState) (a b : String), st.otOwner = a → a ≠ "" →
      st.otOwner = b → b ≠ "" → a = b) ∧
    (∀ (sid dir1 dir2 : String) (t1 t2 : List String), sid ≠ "" →
      (runTrace [MEvent.init sid dir1 t1, MEvent.listen sid,
        MEvent.init sid dir2 t2] initialState).1 =
        [some 200, none, some 409]) := by
  refine ⟨?_, ?_, ?_, ?_⟩
  · intro k st h
    rw [AddSession, if_pos h]
  · intro k dir ttfs st h
    rw [handleInit, AddSession]
    simp [h]
  · intro st a b ha _ hb _
    rw [← ha, ← hb]
  · intro sid dir1 dir2 t1 t2 hsid
    simp [runTrace, stepEv, handleInit, AddSession, sessInit, listenDone,
      initialState, insertSess, lookupSess, hsid]

/-- Witness for `addSession_ot_busy_spec` at concrete states and sids. -/
theorem addSession_ot_busy_case :
    AddSession "Y" ⟨[], "X", [], []⟩ = (false, ⟨[], "X", [], []⟩) ∧
    handleInit "Y" "d" [] ⟨[], "X", [], []⟩ = (409, ⟨[], "X", [], []⟩) ∧
    (runTrace [MEvent.init "X" "d1" [], MEvent.listen "X",
      MEvent.init "X" "d2" []] initialState).1 = [some 200, none, some 409] :=
  ⟨addSession_ot_busy_spec.1 "Y" ⟨[], "X", [], []⟩ (by decide),
   addSession_ot_busy_spec.2.1 "Y" "d" [] ⟨[], "X", [], []⟩ (by decide),
   addSession_ot_busy_spec.2.2.2 "X" "d1" "d2" [] [] (by decide)⟩

theorem lookupSess_filter_self (k : String) (l : List (String × SessData)) :
    lookupSess k (l.filter (fun e => e.1 != k)) = none := by
  induction l with
  | nil => rfl
  | cons e rest ih =>
    by_cases he : e.1 = k
    · simp [List.filter_cons, he, ih]
    · have : (e.1 != k) = true := by simpa using he
      cases e with
      | mk k1 sd =>
        simp only at he this
        simp [List.filter_cons, this, lookupSess, he, ih]

/-- C7: destroying an existing session removes its `storage_dir` (with
everything under it) and every truth-table temp file from the file system
and makes the session unretrievable; and no other manager operation
(`init` handling, `SetBlob`, OT listen completion, OT release) ever
removes a path, so files are deleted exactly when the session is
destroyed.  `os.RemoveAll`/`os.Remove` are assumed to succeed (the code
only logs their errors). -/
theorem removeSession_cleanup_spec (st : MState) (k : String) (sd : SessData)
    (hk : lookupSess k st.sessions = some sd) :
    (∀ p ∈ (removeSession k st).fs, underDir sd.storageDir p = false) ∧
    (∀ f ∈ sd.ttFiles, f ∉ (removeSession k st).fs) ∧
    GetSession k (removeSession k st) = none ∧
    (∀ (dir : String) (ttfs : List String) (p : String), p ∈ st.fs →
      p ∈ (handleInit k dir ttfs st).2.fs) ∧
    (∀ p ∈ st.fs, p ∈ (setBlobFile k st).fs) ∧
    (∀ p ∈ st.fs, p ∈ (listenDone k st).fs ∧ p ∈ (otRelease k st).fs) := by
  have hsess1 : (if st.otOwner = k then
      { st with otOwner := "" } else st).sessions = st.sessions := by
    split <;> rfl
  have hfs1 : (if st.otOwner = k then
      { st with otOwner := "" } else st).fs = st.fs := by
    split <;> rfl
  have hrm : removeSession k st =
      { (if st.otOwner = k then { st with otOwner := "" } else st) with
        sessions := (if st.otOwner = k then { st with otOwner := "" }
          else st).sessions.filter (fun e => e.1 != k),
        fs := (if st.otOwner = k then { st with otOwner := "" }
          else st).fs.filter
          (fun p => !(underDir sd.storageDir p) && !(sd.ttFiles.contains p)) } := by
    rw [removeSession]
    rw [show lookupSess k (if st.otOwner = k then
        { st with otOwner := "" } else st).sessions = some sd from by
      rw [hsess1]; exact hk]
  refine ⟨?_, ?_, ?_, ?_, ?_, ?_⟩
  · intro p hp
    rw [hrm] at hp
    simp only [hfs1] at hp
    have := List.of_mem_filter hp
    simp only [Bool.and_eq_true, Bool.not_eq_true'] at this
    exact this.1
  · intro f hf hmem
    rw [hrm] at hmem
    simp only [hfs1] at hmem
    have := List.of_mem_filter hmem
    simp only [Bool.and_eq_true, Bool.not_eq_true'] at this
    have hc : sd.ttFiles.contains f = true := List.elem_eq_true_of_mem hf
    rw [this.2] at hc
    cases hc
  · rw [GetSession, hrm]
    simp only [hsess1]
    exact lookupSess_filter_self k st.sessions
  · intro dir ttfs p hp
    by_cases h : st.otOwner ≠ ""
    · simp [handleInit, AddSession, h, hp]
    · simp [handleInit, AddSession, h, sessInit, insertSess, lookupSess, hp]
  · intro p hp
    rw [setBlobFile]
    cases lookupSess k st.sessions with
    | none => exact hp
    | some sd1 => simp [hp]
  · intro p hp
    constructor
    · rw [listenDone]
      split <;> exact hp
    · rw [otRelease]
      split <;> exact hp

/-- Witness for `removeSession_cleanup_spec` at a concrete session. -/
theorem removeSession_cleanup_case :
    GetSession "X" (removeSession "X"
      ⟨[("X", ⟨"dirX", ["t1"]⟩)], "X", [],
        ["dirX", "dirX/blobForNotary", "t1", "keep"]⟩) = none ∧
    "t1" ∉ (removeSession "X"
      ⟨[("X", ⟨"dirX", ["t1"]⟩)], "X", [],
        ["dirX", "dirX/blobForNotary", "t1", "keep"]⟩).fs := by
  obtain ⟨_, h2, h3, _⟩ := removeSession_cleanup_spec
    ⟨[("X", ⟨"dirX", ["t1"]⟩)], "X", [],
      ["dirX", "dirX/blobForNotary", "t1", "keep"]⟩ "X" ⟨"dirX", ["t1"]⟩
    (by decide)
  exact ⟨h3, h2 "t1" (by decide)⟩

/-- Witness for `bits_bytes_roundtrip` on a concrete byte-aligned bit
array. -/
theorem bits_bytes_roundtrip_case :
    (BitsToBytes [1, 1, 0, 0, 1, 0, 0, 0]).map BytesToBits =
      some [1, 1, 0, 0, 1, 0, 0, 0] :=
  (bits_bytes_roundtrip [1, 1, 0, 0, 1, 0, 0, 0] (by decide)).2 (by decide)

/-- The values computed by the GHASH-share portion of `Session.C4_step3`
(after the decommitment check): the notary's power shares P1..P3, the OT
response, and the Client-Finished tag share. -/
structure C4Step3Result where
  P1 : List Nat
  P2 : List Nat
  P3 : List Nat
  otResponse : List Nat
  tagShare : List Nat

/-- The GHASH-share computation of `Session.C4_step3` (the code after
`processDecommit`): `blockMult` is `ghash.BlockMult` and
`getMaskedXTable` is `ghash.GetMaskedXTable` with its randomness fixed
(both live in the `notary/ghash` package and are parameters here);
`mask1`/`gctrMask` are circuit 4's masks 1 and 2, and `encCF` is the last
16 bytes of the decrypted request body.  `aad` and `lenAlenC` are the
fixed Client-Finished GHASH blocks from the source. -/
def C4_step3_ghash (blockMult : List Nat → List Nat → List Nat)
    (getMaskedXTable : List Nat → List Nat × List Nat)
    (mask1 gctrMask encCF : List Nat) : Option C4Step3Result :=
  let P1 := mask1
  let P2 := blockMult P1 P1
  let H1H2 := blockMult P1 P2
  let m1 := getMaskedXTable P1
  let m2 := getMaskedXTable P2
  let aad : List Nat := [0, 0, 0, 0, 0, 0, 0, 0, 22, 3, 3, 0, 16, 0, 0, 0]
  let lenAlenC : List Nat :=
    [0, 0, 0, 0, 0, 0, 0, 104, 0, 0, 0, 0, 0, 0, 0, 128]
  do
    let x ← XorBytes m1.2 m2.2
    let P3 ← XorBytes x H1H2
    let s1 := blockMult aad P3
    let s2 := blockMult encCF P2
    let s3 := blockMult lenAlenC P1
    let t1 ← XorBytes s1 s2
    let t2 ← XorBytes t1 s3
    let tagShare ← XorBytes t2 gctrMask
    pure ⟨P1, P2, P3, m2.1 ++ m1.1, tagShare⟩

/-- C5: whenever `C4_step3`'s GHASH-share computation completes, the
notary's share of H² is P2 = block_mult(P1, P1) with P1 the circuit-4
mask, and its share of H³ is P3 = mask_sum_1 ⊕ mask_sum_2 ⊕
block_mult(P1, P2), where mask_sum_1/mask_sum_2 are the mask sums of the
masked X-tables of P1 and P2; the OT response is xtable(P2) ‖ xtable(P1). -/
theorem c4_step3_powers (blockMult : List Nat → List Nat → List Nat)
    (getMaskedXTable : List Nat → List Nat × List Nat)
    (mask1 gctrMask encCF : List Nat) (res : C4Step3Result)
    (h : C4_step3_ghash blockMult getMaskedXTable mask1 gctrMask encCF =
      some res) :
    res.P1 = mask1 ∧
    res.P2 = blockMult mask1 mask1 ∧
    ((XorBytes (getMaskedXTable res.P1).2 (getMaskedXTable res.P2).2).bind
      (fun x => XorBytes x (blockMult res.P1 res.P2))) = some res.P3 ∧
    res.otResponse =
      (getMaskedXTable res.P2).1 ++ (getMaskedXTable res.P1).1 := by
  simp only [C4_step3_ghash, Option.pure_def, Option.bind_eq_bind] at h
  rcases Option.bind_eq_some.mp h with ⟨x, hx, h2⟩
  rcases Option.bind_eq_some.mp h2 with ⟨P3v, hP3, h3⟩
  rcases Option.bind_eq_some.mp h3 with ⟨t1, ht1, h4⟩
  rcases Option.bind_eq_some.mp h4 with ⟨t2, ht2, h5⟩
  rcases Option.bind_eq_some.mp h5 with ⟨ts, hts, h6⟩
  have hres : res = ⟨mask1, blockMult mask1 mask1, P3v,
      (getMaskedXTable (blockMult mask1 mask1)).1 ++
        (getMaskedXTable mask1).1, ts⟩ :=
    (Option.some_inj.mp h6).symm
  subst hres
  refine ⟨rfl, rfl, ?_, rfl⟩
  simp only []
  rw [hx, Option.some_bind, hP3]

/-- Witness for `c4_step3_powers` at concrete parameters. -/
theorem c4_step3_powers_case :
    ∃ res, C4_step3_ghash (fun a _ => a) (fun x => ([], x))
        (List.replicate 16 0) (List.replicate 16 2) (List.replicate 16 1) =
        some res ∧ res.P2 = List.replicate 16 0 := by
  obtain ⟨res, hres⟩ : ∃ res, C4_step3_ghash (fun a _ => a) (fun x => ([], x))
      (List.replicate 16 0) (List.replicate 16 2) (List.replicate 16 1) =
      some res := by
    apply Option.isSome_iff_exists.mp
    decide
  have h := c4_step3_powers (fun a _ => a) (fun x => ([], x))
    (List.replicate 16 0) (List.replicate 16 2) (List.replicate 16 1) res hres
  exact ⟨res, hres, by rw [h.2.1]⟩
